import Mathlib

/-!
Shallow embedding of the inventory request-processing and capacity-allocation
pipeline of `src/main.rs` (functions `process_inventory_requests`,
`process_lines`, `process_inventories`, `log_inventories`, `process_stacks`,
`process_entries`), together with the data model they operate on.

The data types `Item`, `ItemStack`, `Inventory` and `ParsedLine`, and the
operations `Inventory::new`, `Inventory::add_items`, `ItemStack::size` live in
the external `rust_inventory` library, which is not part of the repository
sources; they are modelled from the specification (see the doc comments
below).  Everything else is translated directly from `src/main.rs`.
-/

namespace RustInventory

/-- An item of the catalog: identifier plus display name.
Modelled from the spec (§3 Data Model): the `Item` type lives in the
`rust_inventory` library; `main.rs` accesses it through `get_id` and
`get_name`, which we expose as the fields `id` and `name`. -/
structure Item where
  id : Nat
  name : String
deriving DecidableEq, Repr

/-- A stack request resolved against the catalog: an item plus a quantity.
Modelled from the spec (§3): the `ItemStack` type lives in the
`rust_inventory` library; `ItemStack::new(item, quantity)` is the anonymous
constructor. -/
structure ItemStack where
  item : Item
  quantity : Nat
deriving DecidableEq, Repr

/-- Modelled from the spec: `ItemStack::size` lives in the `rust_inventory`
library.  The spec (§4.4, §9) treats the size as a function of the quantity
and leaves the exact scaling open; we take the raw quantity. -/
def ItemStack.size (s : ItemStack) : Nat := s.quantity

/-- An inventory: declared capacity, running occupancy, stored stacks.
Modelled from the spec (§3): the `Inventory` type lives in the
`rust_inventory` library. -/
structure Inventory where
  capacity : Nat
  occupancy : Nat
  items : List ItemStack
deriving DecidableEq, Repr

/-- Modelled from the spec (§3, §4.2): `Inventory::new(max_size)` constructs
an inventory with the given capacity, occupancy zero and no stored stacks. -/
def Inventory.new (max_size : Nat) : Inventory :=
  { capacity := max_size, occupancy := 0, items := [] }

/-- Modelled from the spec (§4.4 Capacity Enforcement Engine):
`add_items(inventory, stack) -> bool` lives in the `rust_inventory` library.
The stack is accepted, and occupancy increases by its size, exactly when
`occupied + incoming <= capacity`; otherwise the inventory is left unchanged.
Returns the decision together with the updated inventory (the Rust function
mutates `self` and returns the `bool`). -/
def Inventory.add_items (inv : Inventory) (s : ItemStack) : Bool × Inventory :=
  if inv.occupancy + s.size ≤ inv.capacity then
    (true, { capacity := inv.capacity
             occupancy := inv.occupancy + s.size
             items := inv.items ++ [s] })
  else
    (false, inv)

/-- A classified input line.  The variants `InventoryLine { max_size }` and
`ItemStackLine { id, quantity }` are the ones `main.rs` pattern-matches on;
the catch-all `_` arms of `main.rs` and the spec (§3 ClassifiedLine: "a
tagged variant over at least InventoryMarker, StackRequest, Other") indicate
at least one further variant, modelled from the spec as `OtherLine`. -/
inductive ParsedLine where
  | InventoryLine (max_size : Nat)
  | ItemStackLine (id : Nat) (quantity : Nat)
  | OtherLine (text : String)
deriving DecidableEq, Repr

/-- The predicate `matches!(line, ParsedLine::InventoryLine { .. })` used by
`process_lines` in `main.rs`. -/
def is_inventory_line : ParsedLine → Bool
  | .InventoryLine _ => true
  | _ => false

/-- Embedding of `process_lines` from `main.rs`:
`all_inventory_lines.split(|line| matches!(line, ParsedLine::InventoryLine { .. }))`.
Rust's `slice::split` yields the maximal subslices separated by elements
matching the predicate, the separators themselves excluded; an input with
`k` separators yields exactly `k + 1` (possibly empty) subslices. -/
def process_lines : List ParsedLine → List (List ParsedLine)
  | [] => [[]]
  | l :: ls =>
    if is_inventory_line l then
      [] :: process_lines ls
    else
      (l :: (process_lines ls).headD []) :: (process_lines ls).tail

/-- Embedding of `process_inventories` from `main.rs`: one fresh `Inventory`
per `InventoryLine { max_size }`, by `filter_map`, in input order. -/
def process_inventories (all_inventory_lines : List ParsedLine) : List Inventory :=
  all_inventory_lines.filterMap fun line =>
    match line with
    | .InventoryLine max_size => some (Inventory.new max_size)
    | _ => none

/-- Embedding of `process_stacks` from `main.rs`: each `ItemStackLine { id,
quantity }` is resolved by `known_items.iter().find(|item| item.get_id() == *id)`
into an `ItemStack`; all other lines, and unresolvable ids, are dropped by
`filter_map`. -/
def process_stacks (known_items : List Item) (entries : List ParsedLine) : List ItemStack :=
  entries.filterMap fun line =>
    match line with
    | .ItemStackLine id quantity =>
        (known_items.find? fun item => item.id == id).map fun item =>
          ItemStack.mk item quantity
    | _ => none

/-- `s` left-justified and padded with spaces to width `w`: Rust's
`{:9}` format spec on a string. -/
def padRight (w : Nat) (s : String) : String :=
  s ++ String.mk (List.replicate (w - s.length) ' ')

/-- `s` right-justified and padded with spaces to width `w`: Rust's
`{:>2}` format spec. -/
def padLeft (w : Nat) (s : String) : String :=
  String.mk (List.replicate (w - s.length) ' ') ++ s

/-- The log entry built by `process_entries` in `main.rs`:
`format!("{:9} ({:>2}) {}", label, stack.size(), stack.get_item().get_name())`
with label `"Stored"` or `"Discarded"`. -/
def formatEntry (stored : Bool) (size : Nat) (name : String) : String :=
  padRight 9 (if stored then "Stored" else "Discarded") ++
    " (" ++ padLeft 2 (toString size) ++ ") " ++ name

/-- Embedding of `process_entries` from `main.rs`: map over the resolved
stacks in order, calling `inv.add_items(stack)` on the evolving inventory and
formatting one log entry per stack; returns the entries together with the
final inventory (which Rust mutates in place). -/
def process_entries : List ItemStack → Inventory → List String × Inventory
  | [], inv => ([], inv)
  | stack :: rest, inv =>
    let step := inv.add_items stack
    let r := process_entries rest step.2
    (formatEntry step.1 stack.size stack.item.name :: r.1, r.2)

/-- Embedding of `log_inventories` from `main.rs`: zip the inventories with
the segments after the first (`lines.skip(1)`), and for each pair resolve the
stacks and process them against the inventory. -/
def log_inventories (known_items : List Item)
    (lines : List (List ParsedLine)) (inventories : List Inventory) :
    List (List String × Inventory) :=
  (inventories.zip (lines.drop 1)).map fun p =>
    process_entries (process_stacks known_items p.2) p.1

/-- Embedding of `process_inventory_requests` from `main.rs`. -/
def process_inventory_requests (all_inventory_lines : List ParsedLine)
    (known_items : List Item) : List (List String × Inventory) :=
  log_inventories known_items (process_lines all_inventory_lines)
    (process_inventories all_inventory_lines)

/-! ### Measurement helpers used to state the properties -/

/-- The capacities of the `InventoryLine` records, in input order. -/
def marker_capacities (ls : List ParsedLine) : List Nat :=
  ls.filterMap fun line =>
    match line with
    | .InventoryLine max_size => some max_size
    | _ => none

/-- Whether a log entry is labeled `"Stored"` (the label field is the first
nine characters of the entry; `"Stored"` is its first six). -/
def entry_stored (e : String) : Bool :=
  e.data.take 6 == "Stored".data

/-- Sum of the sizes attached to the log entries labeled `"Stored"`, pairing
each entry with the size of the stack it describes. -/
def storedSum (entries : List String) (sizes : List Nat) : Nat :=
  (((entries.zip sizes).filter fun p => entry_stored p.1).map Prod.snd).sum

/-- The records strictly between the `i`-th and `(i+1)`-th marker (counting
from 0): the `i`-th segment paired with the `i`-th inventory by the pipeline. -/
def segment (ls : List ParsedLine) (i : Nat) : List ParsedLine :=
  ((process_lines ls).drop 1).getD i []

/-- Whether a classified line is a stack request resolvable in the catalog. -/
def is_resolvable (known_items : List Item) : ParsedLine → Bool
  | .ItemStackLine id _ => (known_items.find? fun item => item.id == id).isSome
  | _ => false

/-- Interleave the segments with the separator records they were split at:
`reassemble (process_lines ls) (markers of ls)` rebuilds `ls`. -/
def reassemble : List (List ParsedLine) → List ParsedLine → List ParsedLine
  | [], _ => []
  | seg :: segs, [] => seg ++ reassemble segs []
  | seg :: segs, m :: ms => seg ++ m :: reassemble segs ms

/-- Extract the `(id, quantity)` payload of a stack-request record. -/
def as_request : ParsedLine → Option (Nat × Nat)
  | .ItemStackLine id quantity => some (id, quantity)
  | _ => none

/-- Catalog lookup written from the spec's words (§4.3): scan the catalog
left to right and return the first (lowest-index) entry whose identifier
equals the requested one. -/
def lookupFirst : List Item → Nat → Option Item
  | [], _ => none
  | item :: rest, id => if item.id = id then some item else lookupFirst rest id

/-- The resolver written from the spec's words (§4.3): one `ItemStack` per
`StackRequest` record whose identifier is found in the catalog, in the
original relative order, every other record dropped. -/
def resolve_spec (known_items : List Item) (entries : List ParsedLine) : List ItemStack :=
  (entries.filterMap as_request).filterMap fun p =>
    (lookupFirst known_items p.1).map fun item => ItemStack.mk item p.2

/-- Default used with `List.getD` over stack lists. -/
def defaultStack : ItemStack := ⟨⟨0, ""⟩, 0⟩

/-- The pair (log entries, final inventory) the pipeline produces for the
`i`-th marker. -/
def nthPair (ls : List ParsedLine) (known : List Item) (i : Nat) :
    List String × Inventory :=
  (process_inventory_requests ls known).getD i ([], Inventory.new 0)

/-- The sizes of the resolved stacks of the `i`-th segment, in order. -/
def nthSizes (ls : List ParsedLine) (known : List Item) (i : Nat) : List Nat :=
  (process_stacks known (segment ls i)).map ItemStack.size

/-- The catalog of the spec's concrete scenario (§8). -/
def sampleItems : List Item := [⟨1, "Torch"⟩, ⟨2, "Rope"⟩]

/-- The classified-line sequence of the spec's concrete scenario (§8). -/
def sampleLines : List ParsedLine :=
  [.InventoryLine 5, .ItemStackLine 1 3, .ItemStackLine 2 3,
    .InventoryLine 10, .ItemStackLine 1 3]

/-- Two markers with one differing segment: first sample for independence. -/
def linesA : List ParsedLine :=
  [.InventoryLine 5, .ItemStackLine 1 3, .InventoryLine 10, .ItemStackLine 2 1]

/-- Two markers with one differing segment: second sample for independence. -/
def linesB : List ParsedLine :=
  [.InventoryLine 5, .ItemStackLine 1 3, .InventoryLine 10, .ItemStackLine 1 9]

/-! ### Basic lemmas about the capacity engine and the logger -/

theorem add_items_capacity (inv : Inventory) (s : ItemStack) :
    (inv.add_items s).2.capacity = inv.capacity := by
  rw [Inventory.add_items]
  split <;> rfl

theorem add_items_occupancy_le (inv : Inventory) (s : ItemStack) :
    inv.occupancy ≤ (inv.add_items s).2.occupancy := by
  rw [Inventory.add_items]
  split
  · exact Nat.le_add_right _ _
  · exact Nat.le_refl _

theorem add_items_le_capacity (inv : Inventory) (s : ItemStack)
    (h : inv.occupancy ≤ inv.capacity) :
    (inv.add_items s).2.occupancy ≤ inv.capacity := by
  rw [Inventory.add_items]
  split
  case isTrue h1 => exact h1
  case isFalse h1 => exact h

theorem add_items_fst_iff (inv : Inventory) (s : ItemStack) :
    (inv.add_items s).1 = true ↔ inv.occupancy + s.size ≤ inv.capacity := by
  rw [Inventory.add_items]
  split
  case isTrue h1 => simpa using h1
  case isFalse h1 => simpa using h1

theorem add_items_of_true (inv : Inventory) (s : ItemStack)
    (h : (inv.add_items s).1 = true) :
    (inv.add_items s).2.occupancy = inv.occupancy + s.size ∧
      (inv.add_items s).2.items = inv.items ++ [s] := by
  rw [Inventory.add_items] at h ⊢
  split at h
  case isTrue h1 =>
    rw [if_pos h1]
    exact ⟨rfl, rfl⟩
  case isFalse h1 => simp at h

theorem add_items_of_false (inv : Inventory) (s : ItemStack)
    (h : (inv.add_items s).1 = false) :
    (inv.add_items s).2 = inv := by
  rw [Inventory.add_items] at h ⊢
  split at h
  case isTrue h1 => simp at h
  case isFalse h1 =>
    rw [if_neg h1]

theorem padRight_stored : padRight 9 "Stored" = "Stored   " := by decide

theorem padRight_discarded : padRight 9 "Discarded" = "Discarded" := by decide

theorem data_take_append (s t : String) (h : 6 ≤ s.length) :
    (s ++ t).data.take 6 = s.data.take 6 := by
  rw [String.data_append]
  exact List.take_append_of_le_length h

theorem length_append_ge (t u : String) (h : 6 ≤ t.length) : 6 ≤ (t ++ u).length := by
  rw [String.length_append]
  omega

theorem take6_formatEntry (b : Bool) (n : Nat) (s : String) :
    (formatEntry b n s).data.take 6 =
      if b then "Stored".data else "Discar".data := by
  cases b
  · show (padRight 9 "Discarded" ++ " (" ++ padLeft 2 (toString n) ++ ") " ++ s).data.take 6
        = "Discar".data
    rw [padRight_discarded]
    rw [data_take_append _ _ (length_append_ge _ _ (length_append_ge _ _ (by decide))),
        data_take_append _ _ (length_append_ge _ _ (by decide)),
        data_take_append _ _ (by decide)]
    decide
  · show (padRight 9 "Stored" ++ " (" ++ padLeft 2 (toString n) ++ ") " ++ s).data.take 6
        = "Stored".data
    rw [padRight_stored]
    rw [data_take_append _ _ (length_append_ge _ _ (length_append_ge _ _ (by decide))),
        data_take_append _ _ (length_append_ge _ _ (by decide)),
        data_take_append _ _ (by decide)]
    decide

theorem entry_stored_formatEntry (b : Bool) (n : Nat) (s : String) :
    entry_stored (formatEntry b n s) = b := by
  rw [entry_stored, take6_formatEntry]
  cases b
  · decide
  · decide

theorem process_entries_nil (inv : Inventory) : process_entries [] inv = ([], inv) := rfl

theorem process_entries_cons (stack : ItemStack) (rest : List ItemStack) (inv : Inventory) :
    process_entries (stack :: rest) inv =
      (formatEntry (inv.add_items stack).1 stack.size stack.item.name ::
          (process_entries rest (inv.add_items stack).2).1,
        (process_entries rest (inv.add_items stack).2).2) := rfl

theorem process_entries_capacity (sts : List ItemStack) (inv : Inventory) :
    (process_entries sts inv).2.capacity = inv.capacity := by
  induction sts generalizing inv with
  | nil => rfl
  | cons s rest ih =>
    rw [process_entries_cons]
    exact (ih _).trans (add_items_capacity inv s)

theorem process_entries_length (sts : List ItemStack) (inv : Inventory) :
    (process_entries sts inv).1.length = sts.length := by
  induction sts generalizing inv with
  | nil => rfl
  | cons s rest ih =>
    rw [process_entries_cons]
    simp [ih]

theorem process_entries_append (xs ys : List ItemStack) (inv : Inventory) :
    process_entries (xs ++ ys) inv =
      ((process_entries xs inv).1 ++ (process_entries ys (process_entries xs inv).2).1,
        (process_entries ys (process_entries xs inv).2).2) := by
  induction xs generalizing inv with
  | nil => rfl
  | cons s rest ih =>
    rw [List.cons_append, process_entries_cons, process_entries_cons, ih]
    rfl

theorem process_entries_occupancy_le (sts : List ItemStack) (inv : Inventory) :
    inv.occupancy ≤ (process_entries sts inv).2.occupancy := by
  induction sts generalizing inv with
  | nil => exact Nat.le_refl _
  | cons s rest ih =>
    rw [process_entries_cons]
    exact Nat.le_trans (add_items_occupancy_le inv s) (ih _)

theorem process_entries_le_capacity (sts : List ItemStack) (inv : Inventory)
    (h : inv.occupancy ≤ inv.capacity) :
    (process_entries sts inv).2.occupancy ≤ inv.capacity := by
  induction sts generalizing inv with
  | nil => exact h
  | cons s rest ih =>
    rw [process_entries_cons]
    have h1 := add_items_le_capacity inv s h
    have h2 := ih ((inv.add_items s).2)
    rw [add_items_capacity] at h2
    exact h2 h1

theorem storedSum_nil (sizes : List Nat) : storedSum [] sizes = 0 := rfl

theorem storedSum_cons (e : String) (es : List String) (n : Nat) (ns : List Nat) :
    storedSum (e :: es) (n :: ns) =
      (if entry_stored e then n else 0) + storedSum es ns := by
  rw [storedSum, storedSum, List.zip_cons_cons, List.filter_cons]
  by_cases h : entry_stored e
  · rw [if_pos h, if_pos h]
    simp
  · rw [if_neg h, if_neg h]
    simp

theorem storedSum_append (es1 es2 : List String) (ns1 ns2 : List Nat)
    (h : es1.length = ns1.length) :
    storedSum (es1 ++ es2) (ns1 ++ ns2) = storedSum es1 ns1 + storedSum es2 ns2 := by
  rw [storedSum, storedSum, storedSum, List.zip_append h, List.filter_append,
    List.map_append, List.sum_append]

theorem process_entries_occupancy (sts : List ItemStack) (inv : Inventory) :
    (process_entries sts inv).2.occupancy =
      inv.occupancy + storedSum (process_entries sts inv).1 (sts.map ItemStack.size) := by
  induction sts generalizing inv with
  | nil => rfl
  | cons s rest ih =>
    rw [process_entries_cons, List.map_cons, storedSum_cons, entry_stored_formatEntry, ih]
    cases hb : (inv.add_items s).1
    · rw [add_items_of_false inv s hb]
      simp
    · rw [(add_items_of_true inv s hb).1]
      simp
      omega

/-! ### Lemmas about the segmenter and the allocator -/

theorem process_lines_cons_marker (c : Nat) (ls : List ParsedLine) :
    process_lines (ParsedLine.InventoryLine c :: ls) = [] :: process_lines ls := rfl

theorem process_lines_cons_other (l : ParsedLine) (ls : List ParsedLine)
    (h : is_inventory_line l = false) :
    process_lines (l :: ls) =
      (l :: (process_lines ls).headD []) :: (process_lines ls).tail := by
  rw [process_lines]
  rw [h]
  rfl

theorem process_lines_shape (ls : List ParsedLine) :
    process_lines ls = (process_lines ls).headD [] :: (process_lines ls).tail := by
  cases ls with
  | nil => rfl
  | cons l ls =>
    rw [process_lines]
    split <;> rfl

theorem marker_capacities_cons_marker (c : Nat) (ls : List ParsedLine) :
    marker_capacities (ParsedLine.InventoryLine c :: ls) = c :: marker_capacities ls := rfl

theorem marker_capacities_cons_other (l : ParsedLine) (ls : List ParsedLine)
    (h : is_inventory_line l = false) :
    marker_capacities (l :: ls) = marker_capacities ls := by
  cases l with
  | InventoryLine c => exact absurd h (by simp [is_inventory_line])
  | ItemStackLine i q => rfl
  | OtherLine t => rfl

theorem process_inventories_eq_map (ls : List ParsedLine) :
    process_inventories ls = (marker_capacities ls).map Inventory.new := by
  induction ls with
  | nil => rfl
  | cons l ls ih =>
    cases l with
    | InventoryLine c =>
      show Inventory.new c :: process_inventories ls
          = Inventory.new c :: (marker_capacities ls).map Inventory.new
      rw [ih]
    | ItemStackLine i q => exact ih
    | OtherLine t => exact ih

theorem process_lines_length (ls : List ParsedLine) :
    (process_lines ls).length = (marker_capacities ls).length + 1 := by
  induction ls with
  | nil => rfl
  | cons l ls ih =>
    have hsh := process_lines_shape ls
    cases l with
    | InventoryLine c =>
      rw [process_lines_cons_marker, marker_capacities_cons_marker]
      simp [ih]
    | ItemStackLine i q =>
      rw [process_lines_cons_other (.ItemStackLine i q) ls rfl,
        marker_capacities_cons_other (.ItemStackLine i q) ls rfl, ← ih]
      conv_rhs => rw [hsh]
      simp
    | OtherLine t =>
      rw [process_lines_cons_other (.OtherLine t) ls rfl,
        marker_capacities_cons_other (.OtherLine t) ls rfl, ← ih]
      conv_rhs => rw [hsh]
      simp

theorem process_lines_headD (ls : List ParsedLine) :
    (process_lines ls).headD [] = ls.takeWhile fun l => !is_inventory_line l := by
  induction ls with
  | nil => rfl
  | cons l ls ih =>
    cases l with
    | InventoryLine c => rfl
    | ItemStackLine i q =>
      rw [process_lines_cons_other (.ItemStackLine i q) ls rfl]
      simp only [List.headD_cons]
      show ParsedLine.ItemStackLine i q :: (process_lines ls).headD []
          = ParsedLine.ItemStackLine i q :: ls.takeWhile fun l => !is_inventory_line l
      rw [ih]
    | OtherLine t =>
      rw [process_lines_cons_other (.OtherLine t) ls rfl]
      simp only [List.headD_cons]
      show ParsedLine.OtherLine t :: (process_lines ls).headD []
          = ParsedLine.OtherLine t :: ls.takeWhile fun l => !is_inventory_line l
      rw [ih]

theorem process_lines_tail (ls : List ParsedLine) :
    (process_lines ls).tail =
      (process_lines (ls.dropWhile fun l => !is_inventory_line l)).drop 1 := by
  induction ls with
  | nil => rfl
  | cons l ls ih =>
    cases l with
    | InventoryLine c => rfl
    | ItemStackLine i q =>
      rw [process_lines_cons_other (.ItemStackLine i q) ls rfl]
      exact ih
    | OtherLine t =>
      rw [process_lines_cons_other (.OtherLine t) ls rfl]
      exact ih

theorem marker_capacities_dropWhile (ls : List ParsedLine) :
    marker_capacities (ls.dropWhile fun l => !is_inventory_line l) = marker_capacities ls := by
  induction ls with
  | nil => rfl
  | cons l ls ih =>
    cases l with
    | InventoryLine c => rfl
    | ItemStackLine i q => exact ih
    | OtherLine t => exact ih

theorem process_lines_of_no_marker (ls : List ParsedLine)
    (h : ∀ l ∈ ls, is_inventory_line l = false) :
    process_lines ls = [ls] := by
  induction ls with
  | nil => rfl
  | cons l ls ih =>
    have hl : is_inventory_line l = false := h l (List.mem_cons_self _ _)
    have hr := ih fun x hx => h x (List.mem_cons_of_mem _ hx)
    rw [process_lines_cons_other l ls hl, hr]
    rfl

theorem process_lines_mem_no_marker (ls : List ParsedLine) :
    ∀ seg ∈ process_lines ls, ∀ l ∈ seg, is_inventory_line l = false := by
  induction ls with
  | nil =>
    intro seg hseg l hl
    simp only [process_lines, List.mem_singleton] at hseg
    subst hseg
    exact absurd hl (List.not_mem_nil l)
  | cons a ls ih =>
    intro seg hseg l hl
    by_cases ha : is_inventory_line a = true
    · cases a with
      | InventoryLine c =>
        rw [process_lines_cons_marker] at hseg
        rcases List.mem_cons.mp hseg with h1 | h1
        · subst h1
          exact absurd hl (List.not_mem_nil l)
        · exact ih seg h1 l hl
      | ItemStackLine i q => simp [is_inventory_line] at ha
      | OtherLine t => simp [is_inventory_line] at ha
    · rw [Bool.not_eq_true] at ha
      rw [process_lines_cons_other a ls ha] at hseg
      rcases List.mem_cons.mp hseg with h1 | h1
      · subst h1
        rcases List.mem_cons.mp hl with h2 | h2
        · subst h2
          exact ha
        · refine ih ((process_lines ls).headD []) ?_ l h2
          rw [process_lines_shape ls]
          exact List.mem_cons_self _ _
      · refine ih seg ?_ l hl
        rw [process_lines_shape ls]
        exact List.mem_cons_of_mem _ h1

theorem reassemble_cons_cons (l : ParsedLine) (s : List ParsedLine)
    (segs : List (List ParsedLine)) (ms : List ParsedLine) :
    reassemble ((l :: s) :: segs) ms = l :: reassemble (s :: segs) ms := by
  cases ms <;> rfl

theorem reassemble_process_lines (ls : List ParsedLine) :
    reassemble (process_lines ls) (ls.filter is_inventory_line) = ls := by
  induction ls with
  | nil => rfl
  | cons l ls ih =>
    cases l with
    | InventoryLine c =>
      rw [process_lines_cons_marker]
      show reassemble ([] :: process_lines ls)
        (ParsedLine.InventoryLine c :: ls.filter is_inventory_line) = _
      rw [process_lines_shape ls]
      show ParsedLine.InventoryLine c :: reassemble _ _ = _
      rw [← process_lines_shape ls, ih]
    | ItemStackLine i q =>
      rw [process_lines_cons_other (.ItemStackLine i q) ls rfl]
      show reassemble ((ParsedLine.ItemStackLine i q :: (process_lines ls).headD []) ::
        (process_lines ls).tail) (ls.filter is_inventory_line) = _
      rw [reassemble_cons_cons, ← process_lines_shape ls, ih]
    | OtherLine t =>
      rw [process_lines_cons_other (.OtherLine t) ls rfl]
      show reassemble ((ParsedLine.OtherLine t :: (process_lines ls).headD []) ::
        (process_lines ls).tail) (ls.filter is_inventory_line) = _
      rw [reassemble_cons_cons, ← process_lines_shape ls, ih]

theorem process_lines_append_no_marker (pre rest : List ParsedLine)
    (h : ∀ l ∈ pre, is_inventory_line l = false) :
    process_lines (pre ++ rest) =
      (pre ++ (process_lines rest).headD []) :: (process_lines rest).tail := by
  induction pre with
  | nil =>
    simpa using process_lines_shape rest
  | cons l pre ih =>
    have hl : is_inventory_line l = false := h l (List.mem_cons_self _ _)
    rw [List.cons_append, process_lines_cons_other l _ hl,
      ih fun x hx => h x (List.mem_cons_of_mem _ hx)]
    simp

theorem marker_capacities_append_no_marker (pre rest : List ParsedLine)
    (h : ∀ l ∈ pre, is_inventory_line l = false) :
    marker_capacities (pre ++ rest) = marker_capacities rest := by
  induction pre with
  | nil => rfl
  | cons l pre ih =>
    rw [List.cons_append,
      marker_capacities_cons_other l _ (h l (List.mem_cons_self _ _))]
    exact ih fun x hx => h x (List.mem_cons_of_mem _ hx)

/-! ### Lemmas about the orchestrator -/

theorem getD_map_of_lt {α β : Type} (f : α → β) (l : List α) (i : Nat) (d : β) (d0 : α)
    (h : i < l.length) : (l.map f).getD i d = f (l.getD i d0) := by
  induction l generalizing i with
  | nil => simp at h
  | cons a l ih =>
    cases i with
    | zero => rfl
    | succ n => exact ih n (Nat.lt_of_succ_lt_succ h)

theorem getD_zip_of_lt {α β : Type} (a : List α) (b : List β) (i : Nat) (da : α) (db : β)
    (h1 : i < a.length) (h2 : i < b.length) :
    (a.zip b).getD i (da, db) = (a.getD i da, b.getD i db) := by
  induction a generalizing b i with
  | nil => simp at h1
  | cons x xs ih =>
    cases b with
    | nil => simp at h2
    | cons y ys =>
      cases i with
      | zero => rfl
      | succ n => exact ih ys n (Nat.lt_of_succ_lt_succ h1) (Nat.lt_of_succ_lt_succ h2)

theorem map_map_zip_fst {α β γ δ : Type} (A : List α) (B : List β) (f : α × β → γ)
    (g : γ → δ) (k : α → δ) (hl : A.length = B.length)
    (hgf : ∀ a b, g (f (a, b)) = k a) :
    ((A.zip B).map f).map g = A.map k := by
  induction A generalizing B with
  | nil => simp
  | cons a A ih =>
    cases B with
    | nil => simp at hl
    | cons b B =>
      simp only [List.zip_cons_cons, List.map_cons]
      rw [hgf a b, ih B (by simpa using hl)]

theorem process_inventories_cons_marker (c : Nat) (ls : List ParsedLine) :
    process_inventories (ParsedLine.InventoryLine c :: ls) =
      Inventory.new c :: process_inventories ls := rfl

theorem pipeline_length (ls : List ParsedLine) (known : List Item) :
    (process_inventory_requests ls known).length = (marker_capacities ls).length := by
  rw [process_inventory_requests, log_inventories, List.length_map, List.length_zip,
    process_inventories_eq_map, List.length_map, List.length_drop, process_lines_length]
  omega

theorem pipeline_getD (ls : List ParsedLine) (known : List Item) (i : Nat)
    (h : i < (marker_capacities ls).length) :
    (process_inventory_requests ls known).getD i ([], Inventory.new 0) =
      process_entries (process_stacks known (segment ls i))
        (Inventory.new ((marker_capacities ls).getD i 0)) := by
  rw [process_inventory_requests, log_inventories]
  have h1 : i < (process_inventories ls).length := by
    rw [process_inventories_eq_map, List.length_map]
    exact h
  have h2 : i < ((process_lines ls).drop 1).length := by
    rw [List.length_drop, process_lines_length]
    omega
  have h3 : i < ((process_inventories ls).zip ((process_lines ls).drop 1)).length := by
    rw [List.length_zip]
    exact lt_min h1 h2
  rw [getD_map_of_lt _ _ i _ (Inventory.new 0, ([] : List ParsedLine)) h3,
    getD_zip_of_lt _ _ i _ _ h1 h2]
  show process_entries
      (process_stacks known (((process_lines ls).drop 1).getD i []))
      ((process_inventories ls).getD i (Inventory.new 0)) = _
  rw [process_inventories_eq_map, getD_map_of_lt Inventory.new _ i _ 0 h]
  rfl

theorem pipeline_capacities (ls : List ParsedLine) (known : List Item) :
    (process_inventory_requests ls known).map (fun p => p.2.capacity) =
      marker_capacities ls := by
  rw [process_inventory_requests, log_inventories]
  have hl : (process_inventories ls).length = ((process_lines ls).drop 1).length := by
    rw [process_inventories_eq_map, List.length_map, List.length_drop, process_lines_length]
    omega
  rw [map_map_zip_fst _ _ _ _ (fun inv => inv.capacity) hl
    (fun a b => process_entries_capacity (process_stacks known b) a)]
  rw [process_inventories_eq_map, List.map_map]
  have hc : ((fun inv => Inventory.capacity inv) ∘ Inventory.new) = fun c => c := rfl
  rw [hc]
  simp

theorem pipeline_preamble (pre rest : List ParsedLine) (known : List Item)
    (h : ∀ l ∈ pre, is_inventory_line l = false) :
    process_inventory_requests (pre ++ rest) known =
      process_inventory_requests rest known := by
  rw [process_inventory_requests, process_inventory_requests,
    process_lines_append_no_marker pre rest h]
  have hinvs : process_inventories (pre ++ rest) = process_inventories rest := by
    rw [process_inventories_eq_map, process_inventories_eq_map,
      marker_capacities_append_no_marker pre rest h]
  rw [hinvs, log_inventories, log_inventories]
  simp [List.drop_one]

theorem pipeline_cons_marker (c : Nat) (rest : List ParsedLine) (known : List Item) :
    process_inventory_requests (ParsedLine.InventoryLine c :: rest) known =
      process_entries
          (process_stacks known (rest.takeWhile fun l => !is_inventory_line l))
          (Inventory.new c) ::
        process_inventory_requests (rest.dropWhile fun l => !is_inventory_line l) known := by
  rw [process_inventory_requests, log_inventories, process_lines_cons_marker,
    process_inventories_cons_marker, List.drop_one, List.tail_cons]
  conv_lhs => rw [process_lines_shape rest]
  rw [List.zip_cons_cons, List.map_cons, process_lines_headD rest]
  have hinvs : process_inventories rest =
      process_inventories (rest.dropWhile fun l => !is_inventory_line l) := by
    rw [process_inventories_eq_map, process_inventories_eq_map, marker_capacities_dropWhile]
  rw [process_lines_tail rest, hinvs]
  rfl

/-! ### Lemmas about the resolver -/

theorem find?_eq_lookupFirst (known : List Item) (id : Nat) :
    (known.find? fun item => item.id == id) = lookupFirst known id := by
  induction known with
  | nil => rfl
  | cons it rest ih =>
    by_cases h : it.id = id
    · rw [List.find?_cons_of_pos _ (by simpa using h), lookupFirst, if_pos h]
    · rw [List.find?_cons_of_neg _ (by simpa using h), lookupFirst, if_neg h]
      exact ih

theorem process_stacks_cons_stack (known : List Item) (i q : Nat) (rest : List ParsedLine) :
    process_stacks known (ParsedLine.ItemStackLine i q :: rest) =
      match known.find? fun item => item.id == i with
      | some item => ItemStack.mk item q :: process_stacks known rest
      | none => process_stacks known rest := by
  rw [process_stacks, List.filterMap_cons]
  cases hf : known.find? fun item => item.id == i <;> simp [hf, process_stacks]

theorem resolve_spec_cons_stack (known : List Item) (i q : Nat) (rest : List ParsedLine) :
    resolve_spec known (ParsedLine.ItemStackLine i q :: rest) =
      match lookupFirst known i with
      | some item => ItemStack.mk item q :: resolve_spec known rest
      | none => resolve_spec known rest := by
  rw [resolve_spec, List.filterMap_cons]
  show List.filterMap _ ((i, q) :: rest.filterMap as_request) = _
  rw [List.filterMap_cons]
  cases lookupFirst known i <;> rfl

theorem process_stacks_eq_resolve_spec (known : List Item) (entries : List ParsedLine) :
    process_stacks known entries = resolve_spec known entries := by
  induction entries with
  | nil => rfl
  | cons l rest ih =>
    cases l with
    | InventoryLine c => exact ih
    | ItemStackLine i q =>
      rw [process_stacks_cons_stack, resolve_spec_cons_stack, find?_eq_lookupFirst, ih]
    | OtherLine t => exact ih

theorem lookupFirst_lowest (known : List Item) (id : Nat) (i : Nat)
    (hi : i < known.length)
    (hid : (known.getD i ⟨0, ""⟩).id = id)
    (hmin : ∀ j, j < i → (known.getD j ⟨0, ""⟩).id ≠ id) :
    lookupFirst known id = some (known.getD i ⟨0, ""⟩) := by
  induction known generalizing i with
  | nil => simp at hi
  | cons it rest ih =>
    cases i with
    | zero =>
      rw [lookupFirst, if_pos (by simpa using hid)]
      simp
    | succ n =>
      have hne : it.id ≠ id := by simpa using hmin 0 (Nat.succ_pos n)
      rw [lookupFirst, if_neg hne]
      simp only [List.getD_cons_succ] at hid ⊢
      exact ih n (Nat.lt_of_succ_lt_succ hi) hid
        fun j hj => by simpa using hmin (j + 1) (Nat.succ_lt_succ hj)

theorem process_stacks_length (known : List Item) (entries : List ParsedLine) :
    (process_stacks known entries).length = entries.countP (is_resolvable known) := by
  induction entries with
  | nil => rfl
  | cons l rest ih =>
    cases l with
    | InventoryLine c =>
      simpa [List.countP_cons, is_resolvable] using ih
    | ItemStackLine i q =>
      rw [process_stacks_cons_stack]
      cases hf : known.find? fun item => item.id == i
      · simp [List.countP_cons, is_resolvable, hf, ih]
      · simp [List.countP_cons, is_resolvable, hf, ih]
    | OtherLine t =>
      simpa [List.countP_cons, is_resolvable] using ih

theorem process_stacks_append (known : List Item) (l1 l2 : List ParsedLine) :
    process_stacks known (l1 ++ l2) = process_stacks known l1 ++ process_stacks known l2 := by
  rw [process_stacks, process_stacks, process_stacks, List.filterMap_append]

theorem process_stacks_unresolvable (known : List Item) (i q : Nat)
    (seg1 seg2 : List ParsedLine)
    (h : (known.find? fun item => item.id == i) = none) :
    process_stacks known (seg1 ++ ParsedLine.ItemStackLine i q :: seg2) =
      process_stacks known (seg1 ++ seg2) := by
  rw [process_stacks_append, process_stacks_append, process_stacks_cons_stack, h]

/-! ### Prefixes of the decision sequence -/

theorem process_entries_take (sts : List ItemStack) (inv : Inventory) (k : Nat) :
    (process_entries sts inv).1.take k = (process_entries (sts.take k) inv).1 := by
  induction sts generalizing inv k with
  | nil => simp [process_entries_nil]
  | cons s rest ih =>
    cases k with
    | zero => rfl
    | succ n =>
      rw [List.take_succ_cons, process_entries_cons, process_entries_cons]
      simp only [List.take_succ_cons]
      rw [ih]

theorem process_entries_take_occupancy_mono (sts : List ItemStack) (inv : Inventory)
    (k : Nat) :
    (process_entries (sts.take k) inv).2.occupancy ≤
      (process_entries (sts.take (k + 1)) inv).2.occupancy := by
  rw [List.take_succ, process_entries_append]
  exact process_entries_occupancy_le _ _

theorem process_entries_take_succ_occupancy (sts : List ItemStack) (inv : Inventory)
    (k : Nat) (h : k < sts.length) :
    (process_entries (sts.take (k + 1)) inv).2.occupancy =
      (process_entries (sts.take k) inv).2.occupancy +
        (if ((process_entries (sts.take k) inv).2.add_items (sts.getD k defaultStack)).1
          then (sts.getD k defaultStack).size else 0) := by
  have key : ∀ (m : Inventory) (x : ItemStack),
      (process_entries [x] m).2.occupancy =
        m.occupancy + (if (m.add_items x).1 then x.size else 0) := by
    intro m x
    show (m.add_items x).2.occupancy = _
    cases hb : (m.add_items x).1
    · rw [add_items_of_false m x hb]
      simp
    · rw [(add_items_of_true m x hb).1]
      simp
  rw [List.take_succ, List.getElem?_eq_getElem h, process_entries_append,
    List.getD_eq_getElem sts defaultStack h]
  exact key _ _

theorem process_entries_getD (sts : List ItemStack) (inv : Inventory) (k : Nat)
    (h : k < sts.length) :
    (process_entries sts inv).1.getD k "" =
      formatEntry
        (((process_entries (sts.take k) inv).2).add_items (sts.getD k defaultStack)).1
        (sts.getD k defaultStack).size (sts.getD k defaultStack).item.name := by
  induction sts generalizing inv k with
  | nil => simp at h
  | cons s rest ih =>
    cases k with
    | zero => rfl
    | succ n =>
      rw [process_entries_cons]
      simp only [List.getD_cons_succ, List.take_succ_cons]
      rw [process_entries_cons]
      exact ih _ n (Nat.lt_of_succ_lt_succ h)

theorem marker_capacities_length (ls : List ParsedLine) :
    (marker_capacities ls).length = ls.countP is_inventory_line := by
  induction ls with
  | nil => rfl
  | cons l rest ih =>
    cases l with
    | InventoryLine c =>
      simp [marker_capacities_cons_marker, List.countP_cons, is_inventory_line, ih]
    | ItemStackLine i q => simpa [List.countP_cons, is_inventory_line] using ih
    | OtherLine t => simpa [List.countP_cons, is_inventory_line] using ih

/-! ### The claims -/

/-- C2: `add_items` accepts a stack exactly when `occupied + incoming <= capacity`;
on acceptance the occupancy grows by the stack's size and the stack is appended,
on rejection the inventory is left completely unchanged (all-or-nothing);
occupancy remains the sum of the sizes of the accepted stacks; a capacity-0
inventory accepts exactly the size-0 stacks; a stack whose size exceeds the
capacity is always rejected, whatever the current occupancy. -/
theorem add_items_accepts_iff_fits (inv : Inventory) (s : ItemStack) :
    ((inv.add_items s).1 = true ↔ inv.occupancy + s.size ≤ inv.capacity) ∧
    ((inv.add_items s).1 = true →
      (inv.add_items s).2 = { capacity := inv.capacity
                              occupancy := inv.occupancy + s.size
                              items := inv.items ++ [s] }) ∧
    ((inv.add_items s).1 = false → (inv.add_items s).2 = inv) ∧
    (inv.occupancy = (inv.items.map ItemStack.size).sum →
      (inv.add_items s).2.occupancy = ((inv.add_items s).2.items.map ItemStack.size).sum) ∧
    (inv.capacity = 0 → (inv.add_items s).1 = true → s.size = 0) ∧
    (inv.capacity = 0 → inv.occupancy = 0 → s.size = 0 → (inv.add_items s).1 = true) ∧
    (inv.capacity < s.size → (inv.add_items s).1 = false) := by
  refine ⟨add_items_fst_iff inv s, ?_, add_items_of_false inv s, ?_, ?_, ?_, ?_⟩
  · intro hb
    rw [Inventory.add_items] at hb ⊢
    split at hb
    case isTrue h1 => rw [if_pos h1]
    case isFalse h1 => simp at hb
  · intro hsum
    cases hb : (inv.add_items s).1
    · rw [add_items_of_false inv s hb]
      exact hsum
    · obtain ⟨h1, h2⟩ := add_items_of_true inv s hb
      rw [h1, h2, hsum]
      simp
  · intro hc hb
    have := (add_items_fst_iff inv s).mp hb
    omega
  · intro hc ho hs
    exact (add_items_fst_iff inv s).mpr (by omega)
  · intro hlt
    cases hb : (inv.add_items s).1
    · rfl
    · exact absurd ((add_items_fst_iff inv s).mp hb) (by omega)

theorem add_items_accepts_iff_fits_witness :
    ((Inventory.new 5).add_items ⟨⟨1, "Torch"⟩, 3⟩).2 =
      { capacity := 5, occupancy := 3, items := [⟨⟨1, "Torch"⟩, 3⟩] } :=
  (add_items_accepts_iff_fits (Inventory.new 5) ⟨⟨1, "Torch"⟩, 3⟩).2.1 (by decide)

/-- C3: the number of output pairs of `process_inventory_requests` equals the
number of `InventoryLine` records of the input, and the inventories appear in
marker order, each constructed with its marker's capacity (none filtered). -/
theorem pipeline_count_and_order (ls : List ParsedLine) (known : List Item) :
    (process_inventory_requests ls known).length = ls.countP is_inventory_line ∧
    (process_inventory_requests ls known).map (fun p => p.2.capacity) =
      marker_capacities ls :=
  ⟨by rw [pipeline_length, marker_capacities_length], pipeline_capacities ls known⟩

/-- C5: the segmenter never puts a marker inside a segment, interleaving the
segments with the markers rebuilds the input (contiguity, split at every
marker), there is exactly one more segment than there are markers, and a
marker-free input yields the whole input as the single segment and an empty
pipeline output. -/
theorem process_lines_segmenter_spec (ls : List ParsedLine) (known : List Item) :
    (∀ seg ∈ process_lines ls, ∀ l ∈ seg, is_inventory_line l = false) ∧
    reassemble (process_lines ls) (ls.filter is_inventory_line) = ls ∧
    (process_lines ls).length = ls.countP is_inventory_line + 1 ∧
    ((∀ l ∈ ls, is_inventory_line l = false) →
      process_lines ls = [ls] ∧ process_inventory_requests ls known = []) := by
  refine ⟨process_lines_mem_no_marker ls, reassemble_process_lines ls, ?_, ?_⟩
  · rw [process_lines_length, marker_capacities_length]
  · intro h
    refine ⟨process_lines_of_no_marker ls h, ?_⟩
    have hz : (marker_capacities ls).length = 0 := by
      rw [marker_capacities_length]
      exact List.countP_eq_zero.mpr fun l hl => by simp [h l hl]
    have := pipeline_length ls known
    rw [hz] at this
    exact List.eq_nil_of_length_eq_zero this

theorem process_lines_segmenter_spec_witness :
    process_lines [ParsedLine.ItemStackLine 1 3] = [[ParsedLine.ItemStackLine 1 3]] ∧
      process_inventory_requests [ParsedLine.ItemStackLine 1 3] sampleItems = [] :=
  (process_lines_segmenter_spec [ParsedLine.ItemStackLine 1 3] sampleItems).2.2.2
    (by decide)

/-- C9: the pipeline is deterministic — identical classified-line sequences and
identical catalogs yield identical outputs. -/
theorem process_inventory_requests_deterministic
    (ls1 ls2 : List ParsedLine) (k1 k2 : List Item)
    (h1 : ls1 = ls2) (h2 : k1 = k2) :
    process_inventory_requests ls1 k1 = process_inventory_requests ls2 k2 := by
  rw [h1, h2]

theorem process_inventory_requests_deterministic_witness :
    process_inventory_requests sampleLines sampleItems =
      process_inventory_requests sampleLines sampleItems :=
  process_inventory_requests_deterministic sampleLines sampleLines sampleItems sampleItems
    rfl rfl

/-- C4: the preamble before the first marker never contributes to any output
pair, and the pair produced for a marker is built exactly from the records
strictly between that marker and the next one (`takeWhile` up to the next
marker), the remaining pairs coming from the input from the next marker on. -/
theorem pairs_from_segments (known : List Item) :
    (∀ pre rest, (∀ l ∈ pre, is_inventory_line l = false) →
      process_inventory_requests (pre ++ rest) known =
        process_inventory_requests rest known) ∧
    (∀ c rest,
      process_inventory_requests (ParsedLine.InventoryLine c :: rest) known =
        process_entries
            (process_stacks known (rest.takeWhile fun l => !is_inventory_line l))
            (Inventory.new c) ::
          process_inventory_requests (rest.dropWhile fun l => !is_inventory_line l) known) :=
  ⟨fun pre rest h => pipeline_preamble pre rest known h,
    fun c rest => pipeline_cons_marker c rest known⟩

theorem pairs_from_segments_witness :
    process_inventory_requests ([ParsedLine.OtherLine "preamble"] ++ sampleLines)
        sampleItems =
      process_inventory_requests sampleLines sampleItems :=
  (pairs_from_segments sampleItems).1 [ParsedLine.OtherLine "preamble"] sampleLines
    (by decide)

/-- C6: the resolver produces exactly one `ItemStack` per `ItemStackLine` whose
identifier occurs in the catalog, in the original relative order, dropping
every other record (it coincides with the resolver written from the spec's
words), and the catalog entry used is the first (lowest-index) match. -/
theorem process_stacks_resolver_spec (known : List Item) (entries : List ParsedLine) :
    process_stacks known entries = resolve_spec known entries ∧
    (∀ id i, i < known.length →
      (known.getD i ⟨0, ""⟩).id = id →
      (∀ j, j < i → (known.getD j ⟨0, ""⟩).id ≠ id) →
      (known.find? fun item => item.id == id) = some (known.getD i ⟨0, ""⟩)) := by
  refine ⟨process_stacks_eq_resolve_spec known entries, ?_⟩
  intro id i hi hid hmin
  rw [find?_eq_lookupFirst]
  exact lookupFirst_lowest known id i hi hid hmin

theorem process_stacks_resolver_spec_witness :
    (([⟨1, "Torch"⟩, ⟨1, "Copy"⟩] : List Item).find? fun item => item.id == 1) =
      some ⟨1, "Torch"⟩ :=
  (process_stacks_resolver_spec [⟨1, "Torch"⟩, ⟨1, "Copy"⟩] []).2 1 0 (by decide)
    (by decide) fun j hj => absurd hj (Nat.not_lt_zero j)

/-- C7: a stack request whose identifier has no catalog match is silently
dropped — the resolved stack list, the log entries and the final inventory are
the same as if the request were absent — and the number of log entries equals
the number of resolvable stack requests of the segment. -/
theorem unresolvable_request_dropped (known : List Item) (seg1 seg2 : List ParsedLine)
    (i q cap : Nat) (h : (known.find? fun item => item.id == i) = none) :
    process_stacks known (seg1 ++ ParsedLine.ItemStackLine i q :: seg2) =
      process_stacks known (seg1 ++ seg2) ∧
    process_entries
        (process_stacks known (seg1 ++ ParsedLine.ItemStackLine i q :: seg2))
        (Inventory.new cap) =
      process_entries (process_stacks known (seg1 ++ seg2)) (Inventory.new cap) ∧
    (∀ (entries : List ParsedLine) (inv : Inventory),
      (process_entries (process_stacks known entries) inv).1.length =
        entries.countP (is_resolvable known)) := by
  have h1 := process_stacks_unresolvable known i q seg1 seg2 h
  exact ⟨h1, by rw [h1],
    fun entries inv => by rw [process_entries_length, process_stacks_length]⟩

theorem unresolvable_request_dropped_witness :
    process_entries
        (process_stacks sampleItems
          ([] ++ ParsedLine.ItemStackLine 99 4 :: [ParsedLine.ItemStackLine 1 3]))
        (Inventory.new 5) =
      process_entries (process_stacks sampleItems ([] ++ [ParsedLine.ItemStackLine 1 3]))
        (Inventory.new 5) :=
  (unresolvable_request_dropped sampleItems [] [ParsedLine.ItemStackLine 1 3] 99 4 5
    (by decide)).2.1

/-- C8: exactly one log entry is produced per resolved stack, in resolution
order; the `k`-th entry is the formatted line whose label reflects the accept
or discard decision taken against the inventory state after the first `k`
decisions, together with the stack's size and the item's display name. -/
theorem log_entries_match_decisions (sts : List ItemStack) (inv : Inventory) (k : Nat)
    (h : k < sts.length) :
    (process_entries sts inv).1.length = sts.length ∧
    (process_entries sts inv).1.getD k "" =
      formatEntry
        (((process_entries (sts.take k) inv).2).add_items (sts.getD k defaultStack)).1
        (sts.getD k defaultStack).size (sts.getD k defaultStack).item.name ∧
    entry_stored ((process_entries sts inv).1.getD k "") =
      (((process_entries (sts.take k) inv).2).add_items (sts.getD k defaultStack)).1 :=
  ⟨process_entries_length sts inv, process_entries_getD sts inv k h,
    by rw [process_entries_getD sts inv k h, entry_stored_formatEntry]⟩

theorem log_entries_match_decisions_witness :
    (process_entries [⟨⟨1, "Torch"⟩, 3⟩, ⟨⟨2, "Rope"⟩, 3⟩] (Inventory.new 5)).1.getD 1 "" =
      formatEntry false 3 "Rope" :=
  (log_entries_match_decisions [⟨⟨1, "Torch"⟩, 3⟩, ⟨⟨2, "Rope"⟩, 3⟩] (Inventory.new 5) 1
    (by decide)).2.1

/-- C10: inventories are processed independently — the `i`-th output pair is a
function only of the catalog, the marker capacities and the `i`-th segment:
two inputs agreeing on those agree on the `i`-th pair, whatever the other
segments contain. -/
theorem pipeline_segment_independence (known : List Item) (ls1 ls2 : List ParsedLine)
    (i : Nat) (hm : marker_capacities ls1 = marker_capacities ls2)
    (hs : segment ls1 i = segment ls2 i)
    (h : i < (process_inventory_requests ls1 known).length) :
    (process_inventory_requests ls1 known).getD i ([], Inventory.new 0) =
      (process_inventory_requests ls2 known).getD i ([], Inventory.new 0) := by
  have h1 : i < (marker_capacities ls1).length := by
    rw [← pipeline_length ls1 known]
    exact h
  have h2 : i < (marker_capacities ls2).length := by
    rw [← hm]
    exact h1
  rw [pipeline_getD ls1 known i h1, pipeline_getD ls2 known i h2, hs, hm]

theorem pipeline_segment_independence_witness :
    (process_inventory_requests linesA sampleItems).getD 0 ([], Inventory.new 0) =
      (process_inventory_requests linesB sampleItems).getD 0 ([], Inventory.new 0) :=
  pipeline_segment_independence sampleItems linesA linesB 0 (by decide) (by decide)
    (by decide)

/-- C1: for every produced inventory, the running sum of the sizes of the
stacks whose log entry is labeled "Stored" never exceeds that inventory's
declared capacity; the sum never decreases from one decision to the next, and
at each Stored decision it grows by exactly that stack's size (so it stays
equal only for size-0 stacks). -/
theorem stored_sum_bounded_monotone (ls : List ParsedLine) (known : List Item)
    (i k : Nat) (h : i < (process_inventory_requests ls known).length) :
    storedSum ((nthPair ls known i).1.take k) ((nthSizes ls known i).take k) ≤
      (nthPair ls known i).2.capacity ∧
    storedSum ((nthPair ls known i).1.take k) ((nthSizes ls known i).take k) ≤
      storedSum ((nthPair ls known i).1.take (k + 1))
        ((nthSizes ls known i).take (k + 1)) ∧
    (∀ hk : k < (process_stacks known (segment ls i)).length,
      entry_stored ((nthPair ls known i).1.getD k "") = true →
      storedSum ((nthPair ls known i).1.take (k + 1))
          ((nthSizes ls known i).take (k + 1)) =
        storedSum ((nthPair ls known i).1.take k) ((nthSizes ls known i).take k) +
          (nthSizes ls known i).getD k 0) := by
  have h1 : i < (marker_capacities ls).length := by
    rw [← pipeline_length ls known]
    exact h
  have hp : nthPair ls known i =
      process_entries (process_stacks known (segment ls i))
        (Inventory.new ((marker_capacities ls).getD i 0)) := by
    rw [nthPair]
    exact pipeline_getD ls known i h1
  have hsum : ∀ m,
      storedSum ((nthPair ls known i).1.take m) ((nthSizes ls known i).take m) =
        (process_entries ((process_stacks known (segment ls i)).take m)
          (Inventory.new ((marker_capacities ls).getD i 0))).2.occupancy := by
    intro m
    rw [hp, process_entries_take, nthSizes, ← List.map_take]
    have hocc := process_entries_occupancy
      ((process_stacks known (segment ls i)).take m)
      (Inventory.new ((marker_capacities ls).getD i 0))
    simpa [Inventory.new] using hocc.symm
  refine ⟨?_, ?_, ?_⟩
  · rw [hsum k, hp, process_entries_capacity]
    exact process_entries_le_capacity _ _ (Nat.zero_le _)
  · rw [hsum k, hsum (k + 1)]
    exact process_entries_take_occupancy_mono _ _ k
  · intro hk hst
    have hdec : (((process_entries ((process_stacks known (segment ls i)).take k)
          (Inventory.new ((marker_capacities ls).getD i 0))).2).add_items
          ((process_stacks known (segment ls i)).getD k defaultStack)).1 = true := by
      rw [hp, process_entries_getD _ _ k hk, entry_stored_formatEntry] at hst
      exact hst
    have hsz : (nthSizes ls known i).getD k 0 =
        ((process_stacks known (segment ls i)).getD k defaultStack).size := by
      rw [nthSizes]
      exact getD_map_of_lt ItemStack.size _ k 0 defaultStack hk
    rw [hsum k, hsum (k + 1), hsz,
      process_entries_take_succ_occupancy _ _ k hk, hdec, if_pos rfl]

theorem stored_sum_bounded_monotone_witness :
    0 < (process_inventory_requests sampleLines sampleItems).length ∧
      storedSum ((nthPair sampleLines sampleItems 0).1.take 2)
          ((nthSizes sampleLines sampleItems 0).take 2) ≤
        (nthPair sampleLines sampleItems 0).2.capacity :=
  ⟨by decide, (stored_sum_bounded_monotone sampleLines sampleItems 0 2 (by decide)).1⟩

end RustInventory
